import Mathlib

/-!
Verification of the serial extension module (`tools/idf_py_actions/serial_ext.py`)
of the lowjs esp32 ESP-IDF tree: port/baud resolution, the monitor action's
artifact check, the post-scheduling encryption callback, and the static action
dependency table.  Python functions are shallowly embedded as Lean functions;
process state mutated through the shared `args` namespace is made explicit.
-/

namespace SerialExt

/-- Fatal errors of the serial extension.  The source raises `RuntimeError`
when no serial port can be found and `FatalError` when the ELF artifact is
missing; the spec names these `NoDeviceFoundError` and `MissingArtifactError`. -/
inductive SerialError where
  | NoDeviceFound : SerialError
  | MissingArtifact : String → SerialError
  deriving DecidableEq, Repr

instance {ε α : Type} [DecidableEq ε] [DecidableEq α] : DecidableEq (Except ε α) := fun a b =>
  match a, b with
  | .error x, .error y =>
      if h : x = y then isTrue (congrArg Except.error h)
      else isFalse (fun hc => h (Except.error.inj hc))
  | .ok x, .ok y =>
      if h : x = y then isTrue (congrArg Except.ok h)
      else isFalse (fun hc => h (Except.ok.inj hc))
  | .error _, .ok _ => isFalse (fun hc => Except.noConfusion hc)
  | .ok _, .error _ => isFalse (fun hc => Except.noConfusion hc)

/-- Lexicographic order on device identifier strings.  Python's `sorted`
compares strings character by character; the relation is stated on the
character lists (`String.data`) so that the kernel can evaluate it, and
`devLe_iff` below shows it coincides with `String`'s own order. -/
def devLe (a b : String) : Prop := a.data ≤ b.data

instance : DecidableRel devLe := fun a b => inferInstanceAs (Decidable (a.data ≤ b.data))

instance : IsTotal String devLe := ⟨fun a b => le_total a.data b.data⟩

instance : IsTrans String devLe := ⟨fun _ _ _ hab hbc => le_trans hab hbc⟩

theorem devLe_iff (a b : String) : devLe a b ↔ a ≤ b := by
  rw [String.le_iff_toList_le]
  exact Iff.rfl

/-- Outcome of port resolution together with the number of human-readable
auto-selection notices printed (`print("Choosing default port %s ...")`). -/
structure PortResult where
  port : Except SerialError String
  notices : Nat
  deriving DecidableEq, Repr

/-- `_get_default_serial_port`: `ports = list(reversed(sorted(p.device for p in comports())))`,
print a notice and return `ports[0]`; the `IndexError` on the empty enumeration
(raised while evaluating the `print` argument, so before any notice is emitted)
becomes the no-device fatal error. -/
def _get_default_serial_port (devices : List String) : PortResult :=
  let ports := (List.insertionSort devLe devices).reverse
  match ports with
  | [] => ⟨.error .NoDeviceFound, 0⟩
  | p :: _ => ⟨.ok p, 1⟩

/-- Port resolution as performed by `flash` and `monitor`:
`if args.port is None: args.port = _get_default_serial_port()`. -/
def resolvePort (explicitPort : Option String) (devices : List String) : PortResult :=
  match explicitPort with
  | some p => ⟨.ok p, 0⟩
  | none => _get_default_serial_port devices

theorem reverse_sorted_head_max (devices : List String) (m : String) (rest : List String)
    (h : (List.insertionSort devLe devices).reverse = m :: rest) :
    m ∈ devices ∧ ∀ x ∈ devices, devLe x m := by
  have hsorted : List.Sorted devLe (List.insertionSort devLe devices) :=
    List.sorted_insertionSort _ devices
  have hpair : (List.insertionSort devLe devices).reverse.Pairwise (fun a b => devLe b a) := by
    rw [List.pairwise_reverse]
    exact hsorted
  rw [h] at hpair
  have hmemrev : ∀ x : String, x ∈ devices ↔ x ∈ m :: rest := by
    intro x
    rw [← h, List.mem_reverse, List.mem_insertionSort]
  constructor
  · exact (hmemrev m).mpr (List.mem_cons_self m rest)
  · intro x hx
    rcases List.mem_cons.mp ((hmemrev x).mp hx) with hxm | hxr
    · rw [hxm]
      exact le_refl m.data
    · exact (List.pairwise_cons.mp hpair).1 x hxr

theorem reverse_insertionSort_eq_nil (devices : List String) :
    (List.insertionSort devLe devices).reverse = [] ↔ devices = [] := by
  rw [List.reverse_eq_nil_iff]
  constructor
  · intro h
    have hlen := List.length_insertionSort devLe devices
    rw [h] at hlen
    exact List.length_eq_zero.mp hlen.symm
  · intro h
    rw [h]
    rfl

/-- C1: with no explicit port the resolved port is the maximum device
identifier under (reverse-)lexicographic order, i.e. the first element after
reverse-lexicographic sorting; an explicit port is returned unchanged. -/
theorem port_resolution_correct (explicitPort : Option String) (devices : List String) :
    (∀ p, explicitPort = some p → resolvePort explicitPort devices = ⟨.ok p, 0⟩) ∧
    (∀ m, m ∈ devices → (∀ x ∈ devices, devLe x m) → resolvePort none devices = ⟨.ok m, 1⟩) := by
  constructor
  · intro p hp
    rw [hp]
    rfl
  · intro m hmem hmax'
    have hne : devices ≠ [] := List.ne_nil_of_mem hmem
    rcases hrev : (List.insertionSort devLe devices).reverse with _ | ⟨m', rest⟩
    · exact absurd ((reverse_insertionSort_eq_nil devices).mp hrev) hne
    · have hmax := reverse_sorted_head_max devices m' rest hrev
      have h1 : devLe m' m := hmax' m' hmax.1
      have h2 : devLe m m' := hmax.2 m hmem
      have : m' = m := String.toList_inj.mp (le_antisymm h1 h2)
      subst this
      show _get_default_serial_port devices = _
      unfold _get_default_serial_port
      rw [hrev]

/-- Witness for C1 at explicit port "COM5" and at devices ["ttyUSB0", "ttyUSB1"]. -/
theorem port_resolution_correct_witness :
    resolvePort (some "COM5") ["ttyUSB0", "ttyUSB1"] = ⟨.ok "COM5", 0⟩ ∧
    resolvePort none ["ttyUSB0", "ttyUSB1"] = ⟨.ok "ttyUSB1", 1⟩ :=
  ⟨(port_resolution_correct (some "COM5") ["ttyUSB0", "ttyUSB1"]).1 "COM5" rfl,
   (port_resolution_correct none ["ttyUSB0", "ttyUSB1"]).2 "ttyUSB1" (by decide) (by decide)⟩

/-- C4: with no explicit port and an empty device enumeration, port
resolution fails with the no-device error and produces no port value
(and no notice). -/
theorem no_device_found_on_empty_enumeration :
    resolvePort none [] = ⟨.error .NoDeviceFound, 0⟩ := rfl

/-- C7: the auto-selection notice is printed exactly once when and only when
the port is auto-selected (no explicit port, non-empty enumeration); no
notice is printed for an explicit port or a failed resolution. -/
theorem auto_selection_notice_exactly_once (explicitPort : Option String)
    (devices : List String) :
    (explicitPort = none → devices ≠ [] → (resolvePort explicitPort devices).notices = 1) ∧
    (explicitPort ≠ none ∨ devices = [] → (resolvePort explicitPort devices).notices = 0) := by
  constructor
  · intro he hd
    subst he
    rcases hrev : (List.insertionSort devLe devices).reverse with _ | ⟨m', rest⟩
    · exact absurd ((reverse_insertionSort_eq_nil devices).mp hrev) hd
    · show (_get_default_serial_port devices).notices = 1
      unfold _get_default_serial_port
      rw [hrev]
  · intro h
    rcases he : explicitPort with _ | p
    · rcases h with h | h
      · exact absurd he h
      · subst h
        rfl
    · rfl

/-- Witness for C7 at devices ["ttyUSB0", "ttyUSB1"]: one notice when
auto-selecting, none when the port "COM5" is given explicitly. -/
theorem auto_selection_notice_exactly_once_witness :
    (resolvePort none ["ttyUSB0", "ttyUSB1"]).notices = 1 ∧
    (resolvePort (some "COM5") ["ttyUSB0", "ttyUSB1"]).notices = 0 :=
  ⟨(auto_selection_notice_exactly_once none ["ttyUSB0", "ttyUSB1"]).1 rfl (by decide),
   (auto_selection_notice_exactly_once (some "COM5") ["ttyUSB0", "ttyUSB1"]).2
     (Or.inl (by decide))⟩

/-- Python truthiness of an optional string value: `None` and the empty
string are falsy (both `if not monitor_baud:` and `if os.getenv(...):`
test truthiness). -/
def truthy : Option String → Bool
  | none => false
  | some s => !s.isEmpty

/-- The monitor baud fallback chain from `monitor`:
`if not monitor_baud:` then `IDF_MONITOR_BAUD`, then `MONITORBAUD`, then
`project_desc["monitor_baud"]` (modelled as an optional lookup so that a
project description without the key yields no value). -/
def resolveMonitorBaud (explicitBaud idfMonitorBaud monitorBaudEnv projectBaud :
    Option String) : Option String :=
  if truthy explicitBaud then explicitBaud
  else if truthy idfMonitorBaud then idfMonitorBaud
  else if truthy monitorBaudEnv then monitorBaudEnv
  else projectBaud

/-- The first non-empty value of a precedence chain, as the spec words it. -/
def firstNonEmpty : List (Option String) → Option String
  | [] => none
  | x :: xs => if truthy x then x else firstNonEmpty xs

/-- C2: for every presence combination of the four baud inputs (a present
input being a non-empty value), the monitor baud is the first non-empty
value in the order: explicit, `IDF_MONITOR_BAUD`, `MONITORBAUD`, project
description. -/
theorem monitor_baud_precedence (explicitBaud idfMonitorBaud monitorBaudEnv projectBaud :
    Option String)
    (hp : projectBaud = none ∨ truthy projectBaud = true) :
    resolveMonitorBaud explicitBaud idfMonitorBaud monitorBaudEnv projectBaud =
      firstNonEmpty [explicitBaud, idfMonitorBaud, monitorBaudEnv, projectBaud] := by
  have hnone : truthy none = false := rfl
  rcases hp with hp | hp
  · subst hp
    rcases he : truthy explicitBaud <;> rcases hi : truthy idfMonitorBaud <;>
      rcases hm : truthy monitorBaudEnv <;>
        simp [resolveMonitorBaud, firstNonEmpty, he, hi, hm, hnone]
  · rcases he : truthy explicitBaud <;> rcases hi : truthy idfMonitorBaud <;>
      rcases hm : truthy monitorBaudEnv <;>
        simp [resolveMonitorBaud, firstNonEmpty, he, hi, hm, hp]

/-- Witness for C2: no explicit baud, `IDF_MONITOR_BAUD` unset, `MONITORBAUD`
set to "74880", project description baud "115200". -/
theorem monitor_baud_precedence_witness :
    resolveMonitorBaud none none (some "74880") (some "115200") =
      firstNonEmpty [none, none, some "74880", some "115200"] :=
  monitor_baud_precedence none none (some "74880") (some "115200") (Or.inr (by decide))

/-- A scheduled task as seen by `global_callback`: its `name` and its
`action_args` dict, of which only the `encrypted` entry is ever touched;
all other entries are kept opaque in `otherArgs`. -/
structure Task where
  name : String
  encrypted : Bool
  otherArgs : List (String × String)
  deriving DecidableEq, Repr

/-- Does a task enable encryption propagation, i.e. is it one of the two
encrypted flash variants tested by
`task.name in ("encrypted-flash", "encrypted-app-flash")`? -/
def isEncryptedVariant (t : Task) : Bool :=
  t.name == "encrypted-flash" || t.name == "encrypted-app-flash"

/-- The `for task in tasks: if task.name == "monitor": ...; break` loop:
set `action_args["encrypted"] = True` on the first task named "monitor"
and stop. -/
def setEncryptedOnFirstMonitor : List Task → List Task
  | [] => []
  | t :: ts =>
    if t.name == "monitor" then { t with encrypted := true } :: ts
    else t :: setEncryptedOnFirstMonitor ts

/-- `global_callback(ctx, global_args, tasks)`:
`encryption = any(task.name in ("encrypted-flash", "encrypted-app-flash") ...)`;
when set, mark the first scheduled "monitor" task as encrypted. -/
def global_callback (tasks : List Task) : List Task :=
  if tasks.any isEncryptedVariant then setEncryptedOnFirstMonitor tasks
  else tasks

theorem setEncryptedOnFirstMonitor_no_monitor (tasks : List Task)
    (h : ∀ t ∈ tasks, t.name ≠ "monitor") :
    setEncryptedOnFirstMonitor tasks = tasks := by
  induction tasks with
  | nil => rfl
  | cons t ts ih =>
    have ht : t.name ≠ "monitor" := h t (List.mem_cons_self t ts)
    simp only [setEncryptedOnFirstMonitor, beq_iff_eq, ht, if_false]
    rw [ih (fun u hu => h u (List.mem_cons_of_mem t hu))]

theorem setEncryptedOnFirstMonitor_frame (tasks : List Task)
    (h : ∃ t ∈ tasks, t.name = "monitor") :
    ∃ pre t post, tasks = pre ++ t :: post ∧ t.name = "monitor" ∧
      (∀ u ∈ pre, u.name ≠ "monitor") ∧
      setEncryptedOnFirstMonitor tasks =
        pre ++ { t with encrypted := true } :: post := by
  induction tasks with
  | nil => simp at h
  | cons t ts ih =>
    by_cases ht : t.name = "monitor"
    · exact ⟨[], t, ts, rfl, ht, by simp,
        by simp [setEncryptedOnFirstMonitor, ht]⟩
    · obtain ⟨u, hu, hun⟩ := h
      rcases List.mem_cons.mp hu with hut | huts
      · exact absurd (hut ▸ hun) ht
      · obtain ⟨pre, v, post, heq, hv, hpre, hset⟩ := ih ⟨u, huts, hun⟩
        refine ⟨t :: pre, v, post, by simp [heq], hv, ?_, ?_⟩
        · intro w hw
          rcases List.mem_cons.mp hw with hwt | hwpre
          · rw [hwt]
            exact ht
          · exact hpre w hwpre
        · simp only [setEncryptedOnFirstMonitor, beq_iff_eq, ht, if_false]
          rw [hset]
          rfl

/-- C3: after `global_callback`, if some scheduled task is an encrypted
flash variant and some task is named "monitor", a "monitor" task carries
`encrypted = true`; with no encrypted variant, or with no monitor task,
the task list is left exactly as it was. -/
theorem global_callback_sets_monitor_encryption (tasks : List Task) :
    (tasks.any isEncryptedVariant = true → (∃ t ∈ tasks, t.name = "monitor") →
      ∃ t ∈ global_callback tasks, t.name = "monitor" ∧ t.encrypted = true) ∧
    (tasks.any isEncryptedVariant = false → global_callback tasks = tasks) ∧
    (tasks.any isEncryptedVariant = true → (∀ t ∈ tasks, t.name ≠ "monitor") →
      global_callback tasks = tasks) := by
  refine ⟨?_, ?_, ?_⟩
  · intro henc hmon
    obtain ⟨pre, t, post, _, hname, _, hset⟩ := setEncryptedOnFirstMonitor_frame tasks hmon
    refine ⟨{ t with encrypted := true }, ?_, hname, rfl⟩
    unfold global_callback
    rw [henc, if_pos rfl, hset]
    exact List.mem_append_right pre (List.mem_cons_self _ post)
  · intro henc
    unfold global_callback
    rw [henc]
    rfl
  · intro henc hmon
    unfold global_callback
    rw [henc, if_pos rfl]
    exact setEncryptedOnFirstMonitor_no_monitor tasks hmon

/-- Witness for C3 on the task list [encrypted-flash, monitor]: the monitor
task ends up encrypted; on [flash, monitor] the list is unchanged. -/
theorem global_callback_sets_monitor_encryption_witness :
    (∃ t ∈ global_callback [⟨"encrypted-flash", false, []⟩, ⟨"monitor", false, []⟩],
      t.name = "monitor" ∧ t.encrypted = true) ∧
    global_callback [⟨"flash", false, []⟩, ⟨"monitor", false, []⟩] =
      [⟨"flash", false, []⟩, ⟨"monitor", false, []⟩] :=
  ⟨(global_callback_sets_monitor_encryption
      [⟨"encrypted-flash", false, []⟩, ⟨"monitor", false, []⟩]).1 (by decide)
      ⟨⟨"monitor", false, []⟩, by decide, rfl⟩,
   (global_callback_sets_monitor_encryption
      [⟨"flash", false, []⟩, ⟨"monitor", false, []⟩]).2.1 (by decide)⟩

/-- C10: `global_callback` modifies at most the first "monitor" task, and
only its `encrypted` flag: with no encrypted variant scheduled the list is
returned unchanged, otherwise either there is no "monitor" task and the
list is unchanged, or the list is split as `pre ++ monitor :: post` with
no "monitor" in `pre` and only that one task gets `encrypted := true`. -/
theorem global_callback_frame (tasks : List Task) :
    (tasks.any isEncryptedVariant = false → global_callback tasks = tasks) ∧
    (tasks.any isEncryptedVariant = true →
      ((∀ t ∈ tasks, t.name ≠ "monitor") ∧ global_callback tasks = tasks) ∨
      (∃ pre t post, tasks = pre ++ t :: post ∧ t.name = "monitor" ∧
        (∀ u ∈ pre, u.name ≠ "monitor") ∧
        global_callback tasks = pre ++ { t with encrypted := true } :: post)) := by
  constructor
  · intro henc
    unfold global_callback
    rw [henc]
    rfl
  · intro henc
    by_cases hmon : ∃ t ∈ tasks, t.name = "monitor"
    · refine Or.inr ?_
      obtain ⟨pre, t, post, heq, hname, hpre, hset⟩ :=
        setEncryptedOnFirstMonitor_frame tasks hmon
      refine ⟨pre, t, post, heq, hname, hpre, ?_⟩
      unfold global_callback
      rw [henc, if_pos rfl]
      exact hset
    · push_neg at hmon
      refine Or.inl ⟨hmon, ?_⟩
      unfold global_callback
      rw [henc, if_pos rfl]
      exact setEncryptedOnFirstMonitor_no_monitor tasks hmon

/-- Witness for C10: a list without encrypted variants is returned
unchanged, and on [encrypted-app-flash, monitor, monitor] only the first
monitor task is marked encrypted while every other task is untouched. -/
theorem global_callback_frame_witness :
    global_callback [⟨"flash", false, []⟩, ⟨"monitor", false, []⟩] =
      [⟨"flash", false, []⟩, ⟨"monitor", false, []⟩] ∧
    global_callback [⟨"encrypted-app-flash", false, [("k", "v")]⟩,
        ⟨"monitor", false, [("a", "b")]⟩, ⟨"monitor", false, []⟩] =
      [⟨"encrypted-app-flash", false, [("k", "v")]⟩,
        ⟨"monitor", true, [("a", "b")]⟩, ⟨"monitor", false, []⟩] := by
  refine ⟨(global_callback_frame [⟨"flash", false, []⟩, ⟨"monitor", false, []⟩]).1
    (by decide), ?_⟩
  rcases (global_callback_frame [⟨"encrypted-app-flash", false, [("k", "v")]⟩,
      ⟨"monitor", false, [("a", "b")]⟩, ⟨"monitor", false, []⟩]).2 (by decide) with h | h
  · exact absurd rfl (h.1 ⟨"monitor", false, [("a", "b")]⟩ (by decide))
  · decide

/-- The fields of `project_description.json` consumed by `monitor`. -/
structure ProjectDesc where
  app_elf : String
  monitor_baud : String
  monitor_toolprefix : String
  deriving DecidableEq, Repr

/-- The `monitor` action up to the point where `idf_monitor` is invoked,
in source order: resolve the port (`if args.port is None: ...`), build
`elf_file = os.path.join(args.build_dir, project_desc["app_elf"])` and fail
with the missing-artifact fatal error if it does not exist, then resolve
the monitor baud.  The filesystem is modelled by the list of existing
paths; the result is the resolved (port, baud) pair.  The `getD` fallback
of the baud is unreachable because the project-description value is always
present at that point. -/
def monitorAction (explicitPort : Option String) (devices : List String)
    (existingFiles : List String) (build_dir : String) (project_desc : ProjectDesc)
    (monitorBaud idfMonitorBaudEnv monitorBaudEnvVar : Option String) :
    Except SerialError (String × String) :=
  match (resolvePort explicitPort devices).port with
  | .error e => .error e
  | .ok port =>
    let elf_file := build_dir ++ "/" ++ project_desc.app_elf
    if elf_file ∈ existingFiles then
      .ok (port, (resolveMonitorBaud monitorBaud idfMonitorBaudEnv monitorBaudEnvVar
        (some project_desc.monitor_baud)).getD project_desc.monitor_baud)
    else .error (.MissingArtifact elf_file)

theorem resolvePort_error_eq (explicitPort : Option String) (devices : List String)
    (e : SerialError) (h : (resolvePort explicitPort devices).port = .error e) :
    e = .NoDeviceFound := by
  rcases explicitPort with _ | p
  · unfold resolvePort _get_default_serial_port at h
    rcases hrev : (List.insertionSort devLe devices).reverse with _ | ⟨m, rest⟩ <;>
      rw [hrev] at h
    · exact (Except.error.inj h).symm
    · exact Except.noConfusion h
  · exact Except.noConfusion h

/-- C8 counterexample: with no explicit port, no devices and the ELF absent,
`monitor` fails with the no-device error, not the missing-artifact error:
the port is resolved before the artifact is checked. -/
theorem monitor_missing_artifact_counterexample :
    monitorAction none [] [] "build" ⟨"app.elf", "115200", "esp32"⟩ none none none =
      .error .NoDeviceFound ∧
    monitorAction none [] [] "build" ⟨"app.elf", "115200", "esp32"⟩ none none none ≠
      .error (.MissingArtifact "build/app.elf") := by decide

/-- C8 (amended): when port resolution succeeds, a missing ELF artifact makes
`monitor` fail with the missing-artifact fatal error naming the ELF path,
and a present artifact never produces that error. -/
theorem monitor_missing_artifact (explicitPort : Option String) (devices : List String)
    (existingFiles : List String) (build_dir : String) (project_desc : ProjectDesc)
    (monitorBaud idfMonitorBaudEnv monitorBaudEnvVar : Option String) :
    (∀ p, (resolvePort explicitPort devices).port = .ok p →
      build_dir ++ "/" ++ project_desc.app_elf ∉ existingFiles →
      monitorAction explicitPort devices existingFiles build_dir project_desc
          monitorBaud idfMonitorBaudEnv monitorBaudEnvVar =
        .error (.MissingArtifact (build_dir ++ "/" ++ project_desc.app_elf))) ∧
    (build_dir ++ "/" ++ project_desc.app_elf ∈ existingFiles →
      ∀ f, monitorAction explicitPort devices existingFiles build_dir project_desc
          monitorBaud idfMonitorBaudEnv monitorBaudEnvVar ≠
        .error (.MissingArtifact f)) := by
  constructor
  · intro p hp habs
    unfold monitorAction
    rw [hp]
    simp only [habs, if_false]
  · intro hpres f hc
    unfold monitorAction at hc
    rcases hr : (resolvePort explicitPort devices).port with e | p
    · rw [hr] at hc
      have he : e = .NoDeviceFound := resolvePort_error_eq explicitPort devices e hr
      rw [he] at hc
      exact SerialError.noConfusion (Except.error.inj hc)
    · rw [hr] at hc
      simp only [hpres, if_true] at hc
      exact Except.noConfusion hc

/-- Witness for C8 (amended) at explicit port "COM5", build dir "build",
ELF name "app.elf". -/
theorem monitor_missing_artifact_witness :
    monitorAction (some "COM5") [] [] "build" ⟨"app.elf", "115200", "esp32"⟩
        none none none = .error (.MissingArtifact "build/app.elf") ∧
    monitorAction (some "COM5") [] ["build/app.elf"] "build"
        ⟨"app.elf", "115200", "esp32"⟩ none none none ≠
      .error (.MissingArtifact "build/app.elf") :=
  ⟨(monitor_missing_artifact (some "COM5") [] [] "build" ⟨"app.elf", "115200", "esp32"⟩
      none none none).1 "COM5" rfl (by decide),
   (monitor_missing_artifact (some "COM5") [] ["build/app.elf"] "build"
      ⟨"app.elf", "115200", "esp32"⟩ none none none).2 (by decide) "build/app.elf"⟩

/-- The mutable slice of the shared click `args` namespace that the serial
actions read and write: `args.port` (and, read-only here, `args.baud`). -/
structure Args where
  port : Option String
  baud : Nat
  deriving DecidableEq, Repr

/-- `if args.port is None: args.port = _get_default_serial_port()` as
executed inside `flash`, `monitor` and `_get_esptool_args`: the
auto-selected port is assigned to the `args` namespace that all actions of
one process run share. -/
def resolvePortStateful (args : Args) (devices : List String) :
    Except SerialError String × Args :=
  match args.port with
  | some p => (.ok p, args)
  | none =>
    match (_get_default_serial_port devices).port with
    | .ok p => (.ok p, { args with port := some p })
    | .error e => (.error e, args)

/-- C6 counterexample: after one action auto-selects "ttyUSB0", the shared
`args` object differs from its initial state, and a later action's
resolution returns the cached "ttyUSB0" where a fresh resolution over the
later enumeration ["ttyUSB1"] would return "ttyUSB1". -/
theorem resolved_port_not_discarded :
    (resolvePortStateful ⟨none, 460800⟩ ["ttyUSB0"]).2 ≠ (⟨none, 460800⟩ : Args) ∧
    (resolvePortStateful (resolvePortStateful ⟨none, 460800⟩ ["ttyUSB0"]).2
      ["ttyUSB1"]).1 = .ok "ttyUSB0" ∧
    (resolvePortStateful ⟨none, 460800⟩ ["ttyUSB1"]).1 = .ok "ttyUSB1" := by decide

/-- C6 (amended): an already-set port leaves the shared `args` unchanged; an
auto-selected port is written back into `args`, so every later resolution
in the same run returns the cached port whatever it enumerates; the baud
field is never modified by port resolution. -/
theorem resolve_port_state_sharing (args : Args) (devices devicesLater : List String) :
    (∀ p, args.port = some p → resolvePortStateful args devices = (.ok p, args)) ∧
    (∀ p, args.port = none → (_get_default_serial_port devices).port = .ok p →
      (resolvePortStateful args devices).2 = { args with port := some p } ∧
      (resolvePortStateful (resolvePortStateful args devices).2 devicesLater).1 = .ok p) ∧
    (resolvePortStateful args devices).2.baud = args.baud := by
  refine ⟨?_, ?_, ?_⟩
  · intro p hp
    unfold resolvePortStateful
    rw [hp]
  · intro p hn hok
    unfold resolvePortStateful
    rw [hn, hok]
    exact ⟨rfl, rfl⟩
  · rcases hp : args.port with _ | p
    · unfold resolvePortStateful
      rw [hp]
      rcases hr : (_get_default_serial_port devices).port with e | q
      · rfl
      · rfl
    · unfold resolvePortStateful
      rw [hp]

/-- Witness for C6 (amended) at an unset port and enumeration ["ttyUSB0"]. -/
theorem resolve_port_state_sharing_witness :
    (resolvePortStateful ⟨none, 460800⟩ ["ttyUSB0"]).2 =
      (⟨some "ttyUSB0", 460800⟩ : Args) ∧
    (resolvePortStateful (resolvePortStateful ⟨none, 460800⟩ ["ttyUSB0"]).2
      ["ttyUSB1"]).1 = .ok "ttyUSB0" :=
  (resolve_port_state_sharing ⟨none, 460800⟩ ["ttyUSB0"] ["ttyUSB1"]).2.1
    "ttyUSB0" rfl (by decide)

/-- A click option declaration of the table; an option is identified by its
`names` list (`["-b", "--baud"]`, ...); help texts, types and defaults play
no role in the ordering and option-set claims and are not modelled. -/
structure OptionDecl where
  names : List String
  deriving DecidableEq, Repr

/-- The shared `baud_rate` option dict (`"names": ["-b", "--baud"]`). -/
def baud_rate : OptionDecl := ⟨["-b", "--baud"]⟩

/-- The shared `port` option dict (`"names": ["-p", "--port"]`). -/
def port : OptionDecl := ⟨["-p", "--port"]⟩

/-- One entry of the `"actions"` dict of `serial_actions`: the action name,
the name of its callback, its `"options"` value when that key is present,
and its `"order_dependencies"` value when that key is present. -/
structure ActionDecl where
  name : String
  callback : String
  options : Option (List OptionDecl)
  order_dependencies : Option (List String)
  deriving DecidableEq, Repr

/-- The `serial_actions` table returned by `action_extensions`, entries in
source order.  `flash`'s options start with the `global_options` list
imported from `idf_py_actions.global_options`, which lives outside this
module and is therefore a parameter. -/
def serial_actions (global_options : List OptionDecl) : List ActionDecl :=
  [ ⟨"flash", "flash", some (global_options ++ [baud_rate, port]),
      some ["all", "erase_flash"]⟩,
    ⟨"erase_flash", "erase_flash", some [baud_rate, port], none⟩,
    ⟨"monitor", "monitor",
      some [port, ⟨["--print-filter", "--print_filter"]⟩, ⟨["--monitor-baud", "-B"]⟩,
        ⟨["--encrypted", "-E"]⟩],
      some ["flash", "encrypted-flash", "partition_table-flash", "bootloader-flash",
        "app-flash", "encrypted-app-flash"]⟩,
    ⟨"partition_table-flash", "flash", some [baud_rate, port],
      some ["partition_table", "erase_flash"]⟩,
    ⟨"bootloader-flash", "flash", some [baud_rate, port],
      some ["bootloader", "erase_flash"]⟩,
    ⟨"app-flash", "flash", some [baud_rate, port], some ["app", "erase_flash"]⟩,
    ⟨"encrypted-app-flash", "flash", none, some ["app", "erase_flash"]⟩,
    ⟨"encrypted-flash", "flash", none, some ["all", "erase_flash"]⟩ ]

/-- C9 counterexample: not every action declares both a predecessor list
and a port/baud option set: `encrypted-flash` (like `encrypted-app-flash`)
has no `options` key at all, and `erase_flash` has no `order_dependencies`
key. -/
theorem action_table_counterexample :
    ((serial_actions []).find? (fun a => a.name == "encrypted-flash")).map
      ActionDecl.options = some none ∧
    ((serial_actions []).find? (fun a => a.name == "erase_flash")).map
      ActionDecl.order_dependencies = some none := by decide

/-- C9 (amended): the table declares exactly the eight actions in source
order; every flash variant lists `erase_flash` among its predecessors;
`monitor` lists all six flash variants as predecessors and carries port,
print-filter, monitor-baud and encrypted options; `erase_flash` and the
three scoped flash variants carry the baud and port options, `flash`
additionally the imported global options; the two encrypted variants
declare no options, and `erase_flash` declares no predecessors. -/
theorem action_table_amended (g : List OptionDecl) :
    (serial_actions g).map ActionDecl.name =
      ["flash", "erase_flash", "monitor", "partition_table-flash", "bootloader-flash",
        "app-flash", "encrypted-app-flash", "encrypted-flash"] ∧
    (∀ a ∈ serial_actions g,
      a.name ∈ (["flash", "partition_table-flash", "bootloader-flash", "app-flash",
        "encrypted-app-flash", "encrypted-flash"] : List String) →
      "erase_flash" ∈ a.order_dependencies.getD []) ∧
    (∀ a ∈ serial_actions g, a.name = "monitor" →
      a.order_dependencies = some ["flash", "encrypted-flash", "partition_table-flash",
        "bootloader-flash", "app-flash", "encrypted-app-flash"] ∧
      a.options = some [port, ⟨["--print-filter", "--print_filter"]⟩,
        ⟨["--monitor-baud", "-B"]⟩, ⟨["--encrypted", "-E"]⟩]) ∧
    (∀ a ∈ serial_actions g,
      a.name ∈ (["erase_flash", "partition_table-flash", "bootloader-flash",
        "app-flash"] : List String) → a.options = some [baud_rate, port]) ∧
    (∀ a ∈ serial_actions g, a.name = "flash" →
      a.options = some (g ++ [baud_rate, port]) ∧ a.order_dependencies = some ["all", "erase_flash"]) ∧
    (∀ a ∈ serial_actions g,
      a.name ∈ (["encrypted-flash", "encrypted-app-flash"] : List String) →
      a.options = none) := by
  refine ⟨rfl, ?_, ?_, ?_, ?_, ?_⟩ <;>
    · intro a ha
      fin_cases ha <;> simp [serial_actions]

/-- Witness for C9 (amended): `app-flash` as declared in the table lists
`erase_flash` among its predecessors. -/
theorem action_table_amended_witness :
    "erase_flash" ∈ (ActionDecl.mk "app-flash" "flash" (some [baud_rate, port])
      (some ["app", "erase_flash"])).order_dependencies.getD [] :=
  (action_table_amended []).2.1
    ⟨"app-flash", "flash", some [baud_rate, port], some ["app", "erase_flash"]⟩
    (by decide) (by decide)

/-- Modelled from the spec: an entry of the Action Dependency Table,
`ActionSpec = (name, predecessors, options)`; the option set plays no role
in `validate` and is omitted.  `serial_ext.py` only declares such a table
(`serial_actions` above); the `register`/`validate` operations belong to
the host scheduler (`idf.py`), which is not part of this module. -/
structure ActionSpec where
  name : String
  predecessors : List String
  deriving DecidableEq, Repr

/-- Modelled from the spec: the two startup failures of `validate`. -/
inductive ValidateError where
  | DanglingReference : String → ValidateError
  | CycleError : String → ValidateError
  deriving DecidableEq, Repr

/-- The declared action names of a table. -/
def names (table : List ActionSpec) : List String := table.map ActionSpec.name

/-- Modelled from the spec: `predecessors_of(name)`, the ordered predecessor
sequence of a declared action (empty for an unknown name). -/
def predecessors_of (table : List ActionSpec) (n : String) : List String :=
  match table.find? (fun s => s.name == n) with
  | some s => s.predecessors
  | none => []

/-- Modelled from the spec: the check that "every predecessor name must
exist" — the first predecessor name referencing no declared action. -/
def findDangling (table : List ActionSpec) : Option String :=
  (table.flatMap ActionSpec.predecessors).find? (fun p => !(names table).contains p)

/-- Modelled from the spec: the depth-first traversal of `validate`.  The
`path` list is the "visiting" marking (the chain of names currently being
expanded); meeting a name already on the path is a cycle.  The fuel bounds
the recursion depth; `table.length + 1` suffices because the path never
repeats a name, and exhausted fuel is reported as a cycle. -/
def checkNodes (table : List ActionSpec) : Nat → List String → List String →
    Except ValidateError Unit
  | _, _, [] => .ok ()
  | 0, _, x :: _ => .error (.CycleError x)
  | fuel + 1, path, x :: xs =>
    match (if x ∈ path then Except.error (ValidateError.CycleError x)
      else
        match table.find? (fun s => s.name == x) with
        | none => Except.error (ValidateError.DanglingReference x)
        | some s => checkNodes table fuel (x :: path) s.predecessors) with
    | .error e => .error e
    | .ok _ => checkNodes table (fuel + 1) path xs
  termination_by fuel _ l => (fuel, l.length)

/-- The expansion of a single name during the traversal, as its own
function so that the traversal can be reasoned about one step at a time. -/
def checkNode (table : List ActionSpec) (fuel : Nat) (path : List String) (x : String) :
    Except ValidateError Unit :=
  if x ∈ path then .error (.CycleError x)
  else
    match table.find? (fun s => s.name == x) with
    | none => .error (.DanglingReference x)
    | some s => checkNodes table fuel (x :: path) s.predecessors

/-- Modelled from the spec: `validate()` — first every predecessor name
must reference a declared action (else `DanglingReferenceError`), then the
depth-first traversal from every declared action must not revisit a name
on the current path (else `CycleError`). -/
def validate (table : List ActionSpec) : Except ValidateError Unit :=
  match findDangling table with
  | some d => .error (.DanglingReference d)
  | none => checkNodes table (table.length + 1) [] (names table)

/-- The predecessor edge relation of a table: `stepRel table a b` holds when
the action declared under name `a` lists `b` among its predecessors. -/
def stepRel (table : List ActionSpec) (a b : String) : Prop :=
  ∃ s ∈ table, s.name = a ∧ b ∈ s.predecessors

/-- A table has a cycle when some name reaches itself through one or more
predecessor edges. -/
def HasCycle (table : List ActionSpec) : Prop :=
  ∃ a, Relation.TransGen (stepRel table) a a

/-- Every predecessor name references a declared action. -/
def NoDangling (table : List ActionSpec) : Prop :=
  ∀ s ∈ table, ∀ p ∈ s.predecessors, p ∈ names table

instance (table : List ActionSpec) : Decidable (NoDangling table) :=
  inferInstanceAs (Decidable (∀ s ∈ table, ∀ p ∈ s.predecessors, p ∈ names table))

theorem findDangling_eq_none_iff (table : List ActionSpec) :
    findDangling table = none ↔ NoDangling table := by
  unfold findDangling NoDangling
  rw [List.find?_eq_none]
  constructor
  · intro h s hs p hp
    have := h p (List.mem_flatMap.mpr ⟨s, hs, hp⟩)
    simpa using this
  · intro h p hp
    obtain ⟨s, hs, hps⟩ := List.mem_flatMap.mp hp
    simpa using h s hs p hps

theorem checkNodes_nil (table : List ActionSpec) (fuel : Nat) (path : List String) :
    checkNodes table fuel path [] = .ok () := by
  cases fuel <;> rw [checkNodes]

theorem checkNodes_zero_cons (table : List ActionSpec) (path : List String)
    (x : String) (xs : List String) :
    checkNodes table 0 path (x :: xs) = .error (.CycleError x) := by
  rw [checkNodes]

theorem checkNodes_succ_cons (table : List ActionSpec) (fuel : Nat) (path : List String)
    (x : String) (xs : List String) :
    checkNodes table (fuel + 1) path (x :: xs) =
      match checkNode table fuel path x with
      | .error e => .error e
      | .ok _ => checkNodes table (fuel + 1) path xs := by
  rw [checkNodes]
  rfl

theorem checkNode_ok_iff (table : List ActionSpec) (fuel : Nat) (path : List String)
    (x : String) :
    checkNode table fuel path x = .ok () ↔
      x ∉ path ∧ ∃ s, table.find? (fun s => s.name == x) = some s ∧
        checkNodes table fuel (x :: path) s.predecessors = .ok () := by
  constructor
  · intro h
    unfold checkNode at h
    by_cases hx : x ∈ path
    · rw [if_pos hx] at h
      exact Except.noConfusion h
    · rw [if_neg hx] at h
      rcases hf : table.find? (fun s => s.name == x) with _ | s <;> rw [hf] at h
      · exact Except.noConfusion h
      · exact ⟨hx, s, hf, h⟩
  · rintro ⟨hx, s, hf, hrec⟩
    unfold checkNode
    rw [if_neg hx, hf]
    exact hrec

theorem checkNodes_ok_all (table : List ActionSpec) (fuel : Nat) (path l : List String)
    (h : checkNodes table (fuel + 1) path l = .ok ()) :
    ∀ x ∈ l, checkNode table fuel path x = .ok () := by
  induction l with
  | nil =>
    intro x hx
    cases hx
  | cons y ys ihl =>
    intro x hx
    rw [checkNodes_succ_cons] at h
    rcases hc : checkNode table fuel path y with e | u <;> rw [hc] at h
    · exact Except.noConfusion h
    · rcases List.mem_cons.mp hx with rfl | hxs
      · cases u
        exact hc
      · exact ihl h x hxs

theorem found_spec (table : List ActionSpec) {x : String} {s : ActionSpec}
    (hf : table.find? (fun t => t.name == x) = some s) :
    s ∈ table ∧ s.name = x :=
  ⟨List.mem_of_find?_eq_some hf, by simpa using List.find?_some hf⟩

theorem step_mem_found_preds (table : List ActionSpec) (hnodup : (names table).Nodup)
    {x z : String} {s : ActionSpec}
    (hf : table.find? (fun t => t.name == x) = some s)
    (hstep : stepRel table x z) : z ∈ s.predecessors := by
  obtain ⟨s', hs', hn', hz⟩ := hstep
  obtain ⟨hsmem, hsn⟩ := found_spec table hf
  have heq : s' = s :=
    List.inj_on_of_nodup_map hnodup hs' hsmem (by rw [hn', hsn])
  rw [← heq]
  exact hz

theorem checkNode_ok_reach_not_in_path (table : List ActionSpec)
    (hnodup : (names table).Nodup) :
    ∀ fuel path x, checkNode table fuel path x = .ok () →
      ∀ y, Relation.ReflTransGen (stepRel table) x y → y ∉ path := by
  intro fuel
  induction fuel with
  | zero =>
    intro path x hok y hreach
    obtain ⟨hx, s, hf, hrec⟩ := (checkNode_ok_iff table 0 path x).mp hok
    have hpreds : s.predecessors = [] := by
      rcases hp : s.predecessors with _ | ⟨p, ps⟩
      · rfl
      · rw [hp, checkNodes_zero_cons] at hrec
        exact Except.noConfusion hrec
    rcases hreach.cases_head with rfl | ⟨z, hstep, _⟩
    · exact hx
    · have := step_mem_found_preds table hnodup hf hstep
      rw [hpreds] at this
      cases this
  | succ f ih =>
    intro path x hok y hreach
    obtain ⟨hx, s, hf, hrec⟩ := (checkNode_ok_iff table (f + 1) path x).mp hok
    rcases hreach.cases_head with rfl | ⟨z, hstep, hrest⟩
    · exact hx
    · have hz : z ∈ s.predecessors := step_mem_found_preds table hnodup hf hstep
      have hzok : checkNode table f (x :: path) z = .ok () :=
        checkNodes_ok_all table f (x :: path) s.predecessors hrec z hz
      have := ih (x :: path) z hzok y hrest
      exact fun hyp => this (List.mem_cons_of_mem x hyp)

theorem checkNode_ok_no_cycle (table : List ActionSpec) (hnodup : (names table).Nodup)
    (fuel : Nat) (path : List String) (x : String)
    (hok : checkNode table fuel path x = .ok ()) :
    ¬ Relation.TransGen (stepRel table) x x := by
  intro hcyc
  obtain ⟨z, hstep, hrest⟩ := Relation.TransGen.head'_iff.mp hcyc
  obtain ⟨hx, s, hf, hrec⟩ := (checkNode_ok_iff table fuel path x).mp hok
  have hz : z ∈ s.predecessors := step_mem_found_preds table hnodup hf hstep
  cases fuel with
  | zero =>
    rcases hp : s.predecessors with _ | ⟨p, ps⟩
    · rw [hp] at hz
      cases hz
    · rw [hp, checkNodes_zero_cons] at hrec
      exact Except.noConfusion hrec
  | succ f =>
    have hzok : checkNode table f (x :: path) z = .ok () :=
      checkNodes_ok_all table f (x :: path) s.predecessors hrec z hz
    exact checkNode_ok_reach_not_in_path table hnodup f (x :: path) z hzok x hrest
      (List.mem_cons_self x path)

theorem find?_name_of_mem (table : List ActionSpec) {x : String} (hx : x ∈ names table) :
    ∃ s, table.find? (fun s => s.name == x) = some s := by
  obtain ⟨s, hs, hn⟩ := List.mem_map.mp hx
  have : (table.find? (fun s => s.name == x)).isSome := by
    rw [List.find?_isSome]
    exact ⟨s, hs, by simpa using hn⟩
  rcases hf : table.find? (fun s => s.name == x) with _ | t
  · rw [hf] at this
    cases this
  · exact ⟨t, hf⟩

theorem checkNodes_error_classified (table : List ActionSpec) (hnd : NoDangling table) :
    ∀ fuel l path, (∀ x ∈ l, x ∈ names table) → ∀ e,
      checkNodes table fuel path l = .error e → ∃ c, e = ValidateError.CycleError c := by
  intro fuel
  induction fuel with
  | zero =>
    intro l path hl e he
    cases l with
    | nil =>
      rw [checkNodes_nil] at he
      exact Except.noConfusion he
    | cons x xs =>
      rw [checkNodes_zero_cons] at he
      exact ⟨x, (Except.error.inj he).symm⟩
  | succ f ih =>
    intro l
    induction l with
    | nil =>
      intro path hl e he
      rw [checkNodes_nil] at he
      exact Except.noConfusion he
    | cons x xs ihl =>
      intro path hl e he
      rw [checkNodes_succ_cons] at he
      rcases hc : checkNode table f path x with e' | u <;> rw [hc] at he
      · have hee : e' = e := Except.error.inj he
        unfold checkNode at hc
        by_cases hx : x ∈ path
        · rw [if_pos hx] at hc
          exact ⟨x, by rw [← hee, ← Except.error.inj hc]⟩
        · rw [if_neg hx] at hc
          rcases hf : table.find? (fun s => s.name == x) with _ | s <;> rw [hf] at hc
          · obtain ⟨t, ht⟩ := find?_name_of_mem table (hl x (List.mem_cons_self x xs))
            rw [ht] at hf
            exact Option.noConfusion hf
          · obtain ⟨hsmem, _⟩ := found_spec table hf
            have hp : ∀ p ∈ s.predecessors, p ∈ names table := hnd s hsmem
            obtain ⟨c, hcc⟩ := ih s.predecessors (x :: path) hp e' hc
            exact ⟨c, hee ▸ hcc⟩
      · exact ihl path (fun y hy => hl y (List.mem_cons_of_mem x hy)) e he

/-- The invariant of the visiting path: below a node `x`, the path lists the
chain of names whose expansion is in progress, each linked to the next by a
predecessor edge. -/
def PathOK (table : List ActionSpec) : String → List String → Prop
  | _, [] => True
  | x, h :: t => stepRel table h x ∧ PathOK table h t

theorem pathOK_mem_transGen (table : List ActionSpec) :
    ∀ path x, PathOK table x path → ∀ y ∈ path,
      Relation.TransGen (stepRel table) y x := by
  intro path
  induction path with
  | nil =>
    intro x _ y hy
    cases hy
  | cons h t ihp =>
    intro x hp y hy
    rcases List.mem_cons.mp hy with rfl | hyt
    · exact Relation.TransGen.single hp.1
    · exact (ihp h hp.2 y hyt).tail hp.1

theorem nodup_length_le_dedup (d l : List String) (hd : d.Nodup)
    (hsub : ∀ x ∈ d, x ∈ l) : d.length ≤ l.dedup.length := by
  classical
  have h1 : d.toFinset.card = d.length := List.toFinset_card_of_nodup hd
  have h2 : d.toFinset ⊆ l.toFinset := fun x hx => by
    rw [List.mem_toFinset] at *
    exact hsub x hx
  have h3 := Finset.card_le_card h2
  rw [h1, List.card_toFinset] at h3
  exact h3

theorem checkNodes_ok_of_acyclic (table : List ActionSpec) (hnd : NoDangling table)
    (hacyc : ¬ HasCycle table) :
    ∀ fuel l path, (∀ x ∈ l, x ∈ names table) → path.Nodup →
      (∀ q ∈ path, q ∈ names table) → (∀ x ∈ l, PathOK table x path) →
      (names table).dedup.length < fuel + path.length →
      checkNodes table fuel path l = .ok () := by
  intro fuel
  induction fuel with
  | zero =>
    intro l path hl hpnd hpn hpo hcnt
    cases l with
    | nil => exact checkNodes_nil table 0 path
    | cons x xs =>
      exfalso
      have := nodup_length_le_dedup path (names table) hpnd hpn
      omega
  | succ f ih =>
    intro l
    induction l with
    | nil =>
      intro path hl hpnd hpn hpo hcnt
      exact checkNodes_nil table (f + 1) path
    | cons x xs ihl =>
      intro path hl hpnd hpn hpo hcnt
      rw [checkNodes_succ_cons]
      have hx : x ∉ path := by
        intro hxp
        exact hacyc ⟨x, pathOK_mem_transGen table path x
          (hpo x (List.mem_cons_self x xs)) x hxp⟩
      obtain ⟨s, hf⟩ := find?_name_of_mem table (hl x (List.mem_cons_self x xs))
      obtain ⟨hsmem, hsn⟩ := found_spec table hf
      have hone : checkNode table f path x = .ok () := by
        apply (checkNode_ok_iff table f path x).mpr
        refine ⟨hx, s, hf, ?_⟩
        apply ih s.predecessors (x :: path)
        · exact hnd s hsmem
        · exact List.nodup_cons.mpr ⟨hx, hpnd⟩
        · intro q hq
          rcases List.mem_cons.mp hq with rfl | hqp
          · exact hl q (List.mem_cons_self q xs)
          · exact hpn q hqp
        · intro p hp
          exact ⟨⟨s, hsmem, hsn, hp⟩, hpo x (List.mem_cons_self x xs)⟩
        · simp only [List.length_cons]
          omega
      rw [hone]
      exact ihl path (fun y hy => hl y (List.mem_cons_of_mem x hy)) hpnd hpn
        (fun y hy => hpo y (List.mem_cons_of_mem x hy)) hcnt

theorem validate_eq_check (table : List ActionSpec) (hnd : NoDangling table) :
    validate table = checkNodes table (table.length + 1) [] (names table) := by
  unfold validate
  rw [(findDangling_eq_none_iff table).mpr hnd]

theorem validate_cycle_error (table : List ActionSpec) (hnodup : (names table).Nodup)
    (hnd : NoDangling table) (hcyc : HasCycle table) :
    ∃ c, validate table = .error (.CycleError c) := by
  rw [validate_eq_check table hnd]
  rcases hres : checkNodes table (table.length + 1) [] (names table) with e | u
  · obtain ⟨c, hc⟩ := checkNodes_error_classified table hnd (table.length + 1)
      (names table) [] (fun x hx => hx) e hres
    exact ⟨c, by rw [hc]⟩
  · exfalso
    obtain ⟨a, ha⟩ := hcyc
    obtain ⟨z, hstep, _⟩ := Relation.TransGen.head'_iff.mp ha
    obtain ⟨s, hs, hsn, _⟩ := hstep
    have haname : a ∈ names table := hsn ▸ List.mem_map_of_mem ActionSpec.name hs
    cases u
    have hone := checkNodes_ok_all table table.length [] (names table) hres a haname
    exact checkNode_ok_no_cycle table hnodup table.length [] a hone ha

/-- C5 counterexample: the table [A with predecessors [A], B with
predecessors [X]] contains a self-referencing predecessor (A depends on A),
yet `validate` fails with the dangling-reference error for the undeclared
X, not with a cycle error: the claim's universally phrased dangling and
cycle clauses conflict on tables having both defects. -/
theorem validate_claim_counterexample :
    (⟨"A", ["A"]⟩ : ActionSpec) ∈ ([⟨"A", ["A"]⟩, ⟨"B", ["X"]⟩] : List ActionSpec) ∧
    "A" ∈ (ActionSpec.mk "A" ["A"]).predecessors ∧
    validate [⟨"A", ["A"]⟩, ⟨"B", ["X"]⟩] = .error (.DanglingReference "X") := by decide

/-- C5 (amended): for a table with uniquely named actions, `validate` fails
with a dangling-reference error whenever some predecessor references no
declared action; on tables without dangling references it fails with a
cycle error whenever there is a self-referencing predecessor or a two-step
cycle, and succeeds on every acyclic table. -/
theorem validate_correct (table : List ActionSpec) (hnodup : (names table).Nodup) :
    ((∃ s ∈ table, ∃ p ∈ s.predecessors, p ∉ names table) →
      ∃ d, validate table = .error (.DanglingReference d)) ∧
    (NoDangling table →
      ((∃ s ∈ table, s.name ∈ s.predecessors) ∨
        (∃ s ∈ table, ∃ t ∈ table, s.name ≠ t.name ∧ t.name ∈ s.predecessors ∧
          s.name ∈ t.predecessors)) →
      ∃ c, validate table = .error (.CycleError c)) ∧
    (NoDangling table → ¬ HasCycle table → validate table = .ok ()) := by
  refine ⟨?_, ?_, ?_⟩
  · intro hdang
    have hne : findDangling table ≠ none := by
      intro h0
      have hnd := (findDangling_eq_none_iff table).mp h0
      obtain ⟨s, hs, p, hp, hpn⟩ := hdang
      exact hpn (hnd s hs p hp)
    rcases hfd : findDangling table with _ | d
    · exact absurd hfd hne
    · refine ⟨d, ?_⟩
      unfold validate
      rw [hfd]
  · intro hnd hcy
    apply validate_cycle_error table hnodup hnd
    rcases hcy with ⟨s, hs, hself⟩ | ⟨s, hs, t, ht, _, hts, hst⟩
    · exact ⟨s.name, Relation.TransGen.single ⟨s, hs, rfl, hself⟩⟩
    · exact ⟨s.name, Relation.TransGen.head ⟨s, hs, rfl, hts⟩
        (Relation.TransGen.single ⟨t, ht, rfl, hst⟩)⟩
  · intro hnd hacyc
    rw [validate_eq_check table hnd]
    apply checkNodes_ok_of_acyclic table hnd hacyc (table.length + 1) (names table) []
    · exact fun x hx => hx
    · exact List.nodup_nil
    · intro q hq
      cases hq
    · intro x _
      exact trivial
    · have hd := (List.dedup_sublist (names table)).length_le
      have hlen : (names table).length = table.length := List.length_map table ActionSpec.name
      simp only [List.length_nil]
      omega

/-- A strictly decreasing measure along predecessor edges rules out cycles. -/
theorem acyclic_of_measure (table : List ActionSpec) (f : String → Nat)
    (h : ∀ x y, stepRel table x y → f y < f x) : ¬ HasCycle table := by
  rintro ⟨a, ha⟩
  have hlt : ∀ x y, Relation.TransGen (stepRel table) x y → f y < f x := by
    intro x y hxy
    induction hxy with
    | single hs => exact h _ _ hs
    | tail _ hs ih => exact lt_trans (h _ _ hs) ih
  exact absurd (hlt a a ha) (lt_irrefl (f a))

/-- Depth rank for the concrete chain a → b → c used in the C5 witness. -/
def rankABC (x : String) : Nat := if x = "a" then 2 else if x = "b" then 1 else 0

theorem rankABC_decreases :
    ∀ x y, stepRel [⟨"a", ["b"]⟩, ⟨"b", ["c"]⟩, ⟨"c", []⟩] x y →
      rankABC y < rankABC x := by
  rintro x y ⟨s, hs, hsn, hy⟩
  fin_cases hs <;> subst hsn <;> simp_all <;> decide

/-- Witness for C5 (amended): the acyclic predecessor chain a → b → c of
depth 3 (with unique names and no dangling references) validates. -/
theorem validate_correct_witness :
    validate [⟨"a", ["b"]⟩, ⟨"b", ["c"]⟩, ⟨"c", []⟩] = .ok () :=
  (validate_correct [⟨"a", ["b"]⟩, ⟨"b", ["c"]⟩, ⟨"c", []⟩] (by decide)).2.2
    (by decide)
    (acyclic_of_measure [⟨"a", ["b"]⟩, ⟨"b", ["c"]⟩, ⟨"c", []⟩] rankABC rankABC_decreases)

end SerialExt
